import Mathlib

set_option maxHeartbeats 1000000

/-!
Verification of the infinite mixture model sampler
(nipy/neurospin/clustering/imm.py: classes IMM and MixedIMM).

The Python code is shallowly embedded over lists: an assignment vector is a
List Int (-1 denoting the null class), densities and weights are rationals,
data points are lists of rationals.  The base class BGMM and its methods
(update, unweighted_likelihood, sample_indicator, pop) live in bgmm.py,
which is an external collaborator of this module; where a claim depends on
them they are either taken as abstract total function parameters or, for
pop, modelled from the specification of their contract.

Random draws (np.random.rand, the categorical draw inside
BGMM.sample_indicator) are modelled as oracle arguments: the permutation
produced by argsort and the per-row categorical outcomes are passed in
explicitly, so every theorem quantifies over all possible draws.
-/

/-- Python exceptions raised by the embedded code paths. -/
inductive PyError where
  /-- ValueError: kfold and x do not have the same size. -/
  | kfoldSize : PyError
  /-- ValueError: zero-size array to reduction operation maximum
  (raised by z.max() on an empty array). -/
  | zeroSizeMax : PyError
  /-- TypeError: too many arguments to a method missing its self parameter. -/
  | typeError : PyError
  /-- NameError: unbound name (self) in a method body missing its self parameter. -/
  | nameError : PyError
deriving DecidableEq

/-- Sorted insertion without duplicates, the building block of np.unique. -/
def insertSorted (a : Int) : List Int → List Int
  | [] => [a]
  | b :: l => if a < b then a :: b :: l else if a = b then b :: l else b :: insertSorted a l

/-- np.unique: the sorted list of distinct values of the input. -/
def npUnique (l : List Int) : List Int := l.foldr insertSorted []

/-- np.max of an integer array: none on an empty array, where numpy raises
ValueError (zero-size array to reduction operation maximum). -/
def npMax : List Int → Option Int
  | [] => none
  | a :: l =>
    match npMax l with
    | none => some a
    | some m => some (max a m)

/-- State of the IMM class (imm.py): dimension, concentration parameter
alpha, current component count k, mixing weights, prior weight
(set to alpha by set_priors) and the optional constant prior density.
The Gaussian component parameters and expanded priors live in the BGMM
base class and are abstracted where a claim needs them. -/
structure IMM where
  dim : Nat
  alpha : ℚ
  k : Int
  weights : List ℚ
  prior_weights : ℚ
  prior_dens : Option ℚ
deriving DecidableEq

/-- State of the MixedIMM subclass: the IMM state plus the optional
constant null density. -/
structure MixedIMM extends IMM where
  null_dens : Option ℚ
deriving DecidableEq

/-- One step z[z==old] = new of the relabelling loop in IMM.reduce. -/
def relabel (z : List Int) (old new : Int) : List Int :=
  z.map fun v => if v = old then new else v

/-- The loop for i,k in enumerate(uz): z[z==k] = i of IMM.reduce,
folded over the enumerated pairs. -/
def relabelAll (z : List Int) (ps : List (Nat × Int)) : List Int :=
  ps.foldl (fun acc p => relabel acc p.2 (p.1 : Int)) z

/-- The body of IMM.reduce (imm.py lines 238-256): compact the labels of z
by relabelling the sorted distinct non-null values (uz) to their ranks,
then compute the new component count z.max()+1.  Returns none on an empty
vector, where z.max() raises ValueError in numpy. -/
def reduceZ (z : List Int) : Option (List Int × Int) :=
  let uz := npUnique (z.filter (fun v => decide (v > -1)))
  let z1 := relabelAll z uz.enum
  match npMax z1 with
  | none => none
  | some m => some (z1, m + 1)

/-- IMM.reduce: runs reduceZ, stores the new count in self.k and returns
the remapped vector. -/
def IMM.reduce (st : IMM) (z : List Int) : Option (IMM × List Int) :=
  match reduceZ z with
  | none => none
  | some (z1, k1) => some ({ st with k := k1 }, z1)

/-- Cumulative effect of the relabelling loop on a single entry. -/
def applyAll (ps : List (Nat × Int)) (v : Int) : Int :=
  ps.foldl (fun a p => if a = p.2 then (p.1 : Int) else a) v

/-- Rank of a value in a list (index of its first occurrence); phrases the
rank-order relabelling of reduce. -/
def rankIn (v : Int) : List Int → Nat
  | [] => 0
  | a :: l => if v = a then 0 else rankIn v l + 1

theorem length_relabel (z : List Int) (a b : Int) : (relabel z a b).length = z.length := by
  simp [relabel]

theorem relabelAll_eq_map (ps : List (Nat × Int)) (z : List Int) :
    relabelAll z ps = z.map (applyAll ps) := by
  induction ps generalizing z with
  | nil =>
    have h0 : applyAll ([] : List (Nat × Int)) = fun v => v := rfl
    simp [relabelAll, h0]
  | cons p ps ih =>
    have h1 : relabelAll z (p :: ps) = relabelAll (relabel z p.2 (p.1 : Int)) ps := rfl
    rw [h1, ih, relabel, List.map_map]
    rfl

theorem applyAll_of_not_mem (ps : List (Nat × Int)) (v : Int)
    (h : ∀ p ∈ ps, v ≠ p.2) : applyAll ps v = v := by
  induction ps with
  | nil => rfl
  | cons p ps ih =>
    have h0 : applyAll (p :: ps) v = applyAll ps (if v = p.2 then (p.1 : Int) else v) := rfl
    rw [h0, if_neg (h p (List.mem_cons_self p ps))]
    exact ih fun q hq => h q (List.mem_cons_of_mem _ hq)

theorem snd_mem_of_mem_enumFrom (l : List Int) (s : Nat) (p : Nat × Int)
    (h : p ∈ List.enumFrom s l) : p.2 ∈ l := by
  induction l generalizing s with
  | nil => simp [List.enumFrom] at h
  | cons a l ih =>
    rcases List.mem_cons.mp h with h1 | h1
    · rw [h1]; exact List.mem_cons_self a l
    · exact List.mem_cons_of_mem _ (ih (s + 1) h1)

theorem applyAll_enumFrom (l : List Int) (s : Nat) (v : Int)
    (hsorted : l.Pairwise (· < ·)) (hge : ∀ a ∈ l, (s : Int) ≤ a) :
    applyAll (List.enumFrom s l) v =
      if v ∈ l then ((s + rankIn v l : Nat) : Int) else v := by
  induction l generalizing s v with
  | nil => simp [applyAll, List.enumFrom]
  | cons a l ih =>
    have hcons : List.enumFrom s (a :: l) = (s, a) :: List.enumFrom (s + 1) l := rfl
    have hstep : applyAll ((s, a) :: List.enumFrom (s + 1) l) v =
        applyAll (List.enumFrom (s + 1) l) (if v = a then (s : Int) else v) := rfl
    rcases List.pairwise_cons.mp hsorted with ⟨ha, hl⟩
    have hsa : (s : Int) ≤ a := hge a (List.mem_cons_self a l)
    by_cases hva : v = a
    · rw [hcons, hstep, if_pos hva]
      have hnone : ∀ p ∈ List.enumFrom (s + 1) l, (s : Int) ≠ p.2 := by
        intro p hp
        have hmem := snd_mem_of_mem_enumFrom l (s + 1) p hp
        have : a < p.2 := ha p.2 hmem
        omega
      rw [applyAll_of_not_mem _ _ hnone]
      simp [hva, rankIn]
    · rw [hcons, hstep, if_neg hva]
      have hge1 : ∀ b ∈ l, ((s + 1 : Nat) : Int) ≤ b := by
        intro b hb
        have : a < b := ha b hb
        push_cast
        omega
      rw [ih (s + 1) v hl hge1]
      by_cases hvl : v ∈ l
      · rw [if_pos hvl, if_pos (List.mem_cons_of_mem a hvl)]
        have : rankIn v (a :: l) = rankIn v l + 1 := by simp [rankIn, hva]
        rw [this]
        push_cast
        ring
      · rw [if_neg hvl, if_neg (by simp [hva, hvl])]

theorem mem_insertSorted (a b : Int) (l : List Int) :
    b ∈ insertSorted a l ↔ b = a ∨ b ∈ l := by
  induction l with
  | nil => simp [insertSorted]
  | cons c l ih =>
    by_cases h1 : a < c
    · rw [insertSorted, if_pos h1]
      simp [List.mem_cons]
    · by_cases h2 : a = c
      · rw [insertSorted, if_neg h1, if_pos h2]
        subst h2
        simp [List.mem_cons]
      · rw [insertSorted, if_neg h1, if_neg h2]
        simp only [List.mem_cons, ih]
        tauto

theorem pairwise_insertSorted (a : Int) (l : List Int)
    (h : l.Pairwise (· < ·)) : (insertSorted a l).Pairwise (· < ·) := by
  induction l with
  | nil => simp [insertSorted]
  | cons c l ih =>
    rcases List.pairwise_cons.mp h with ⟨hc, hl⟩
    by_cases h1 : a < c
    · rw [insertSorted, if_pos h1]
      refine List.pairwise_cons.mpr ⟨?_, h⟩
      intro b hb
      rcases List.mem_cons.mp hb with rfl | hbl
      · exact h1
      · exact lt_trans h1 (hc b hbl)
    · by_cases h2 : a = c
      · rw [insertSorted, if_neg h1, if_pos h2]
        exact h
      · rw [insertSorted, if_neg h1, if_neg h2]
        refine List.pairwise_cons.mpr ⟨?_, ih hl⟩
        intro b hb
        rcases (mem_insertSorted a b l).mp hb with rfl | hbl
        · omega
        · exact hc b hbl

theorem mem_npUnique (a : Int) (l : List Int) : a ∈ npUnique l ↔ a ∈ l := by
  induction l with
  | nil => simp [npUnique]
  | cons b l ih =>
    have : npUnique (b :: l) = insertSorted b (npUnique l) := rfl
    rw [this, mem_insertSorted, ih, List.mem_cons]

theorem pairwise_npUnique (l : List Int) : (npUnique l).Pairwise (· < ·) := by
  induction l with
  | nil => simp [npUnique]
  | cons b l ih => exact pairwise_insertSorted b (npUnique l) ih

theorem nodup_npUnique (l : List Int) : (npUnique l).Nodup :=
  (pairwise_npUnique l).imp fun h => ne_of_lt h

theorem rankIn_lt_length (v : Int) (l : List Int) (h : v ∈ l) : rankIn v l < l.length := by
  induction l with
  | nil => simp at h
  | cons a l ih =>
    by_cases hva : v = a
    · simp [rankIn, hva]
    · rw [rankIn, if_neg hva]
      have : v ∈ l := (List.mem_cons.mp h).resolve_left hva
      simpa using ih this

theorem rankIn_get (l : List Int) (hnd : l.Nodup) (j : Nat) (h : j < l.length) :
    rankIn (l.get ⟨j, h⟩) l = j := by
  induction l generalizing j with
  | nil => simp at h
  | cons a l ih =>
    cases j with
    | zero => simp [rankIn]
    | succ j =>
      have hj : j < l.length := by simpa using h
      have hget : (a :: l).get ⟨j + 1, h⟩ = l.get ⟨j, hj⟩ := rfl
      have hne : l.get ⟨j, hj⟩ ≠ a := by
        intro he
        exact (List.nodup_cons.mp hnd).1 (he ▸ List.get_mem l j hj)
      rw [hget, rankIn, if_neg hne, ih (List.nodup_cons.mp hnd).2 j hj]

theorem npMax_spec (z : List Int) (hz : z ≠ []) :
    ∃ M, npMax z = some M ∧ M ∈ z ∧ ∀ v ∈ z, v ≤ M := by
  induction z with
  | nil => exact absurd rfl hz
  | cons a l ih =>
    cases l with
    | nil =>
      refine ⟨a, rfl, List.mem_cons_self a [], ?_⟩
      intro v hv
      rcases List.mem_cons.mp hv with rfl | hv
      · exact le_refl v
      · simp at hv
    | cons b l' =>
      obtain ⟨M, hM, hmem, hub⟩ := ih (by simp)
      refine ⟨max a M, ?_, ?_, ?_⟩
      · show (match npMax (b :: l') with
          | none => some a
          | some m => some (max a m)) = some (max a M)
        rw [hM]
      · rcases max_choice a M with h | h
        · rw [h]; exact List.mem_cons_self a (b :: l')
        · rw [h]; exact List.mem_cons_of_mem a hmem
      · intro v hv
        rcases List.mem_cons.mp hv with rfl | hv
        · exact le_max_left v M
        · exact le_trans (hub v hv) (le_max_right a M)

theorem getD_map_lt (f : Int → Int) (l : List Int) (i : Nat) (h : i < l.length) (d : Int) :
    (l.map f).getD i d = f (l.getD i d) := by
  induction l generalizing i with
  | nil => simp at h
  | cons a l ih =>
    cases i with
    | zero => rfl
    | succ i => exact ih i (by simpa using h)

theorem getD_mem_of_lt (l : List Int) (i : Nat) (h : i < l.length) (d : Int) :
    l.getD i d ∈ l := by
  induction l generalizing i with
  | nil => simp at h
  | cons a l ih =>
    cases i with
    | zero => exact List.mem_cons_self a l
    | succ i => exact List.mem_cons_of_mem a (ih i (by simpa using h))

/-- C1 (amended): for every nonempty valid assignment vector z (integer
entries, -1 denoting null), IMM.reduce succeeds and returns z relabelled so
that entries equal to -1 are unchanged, every non-null entry is mapped to its
rank among the sorted distinct non-null input labels, the non-null labels of
the result form exactly the contiguous set of integers from 0 to k-1, and
self.k is set to the number of distinct non-null input labels (0 when every
entry is null).  The original claim also covered the empty vector, on which
reduce instead fails: z.max() raises ValueError there (see the
counterexample), hence the nonemptiness hypothesis. -/
theorem c1_reduce_compacts_labels (st : IMM) (z : List Int)
    (hz : z ≠ []) (hv : ∀ v ∈ z, -1 ≤ v) :
    ∃ st1 z1, st.reduce z = some (st1, z1) ∧
      st1.k = ((npUnique (z.filter (fun v => decide (v > -1)))).length : Int) ∧
      z1.length = z.length ∧
      (∀ i, i < z.length →
        (z.getD i 0 = -1 → z1.getD i 0 = -1) ∧
        (0 ≤ z.getD i 0 → z1.getD i 0 =
          (rankIn (z.getD i 0) (npUnique (z.filter (fun v => decide (v > -1)))) : Int))) ∧
      (∀ v ∈ z1, v = -1 ∨ (0 ≤ v ∧ v < st1.k)) ∧
      (∀ j : Nat, (j : Int) < st1.k → (j : Int) ∈ z1) := by
  set uz := npUnique (z.filter (fun v => decide (v > -1))) with huz
  set f := applyAll uz.enum with hfdef
  have hmem_uz : ∀ a : Int, a ∈ uz ↔ a ∈ z ∧ -1 < a := by
    intro a
    rw [huz, mem_npUnique, List.mem_filter]
    simp
  have hge0 : ∀ a ∈ uz, (0 : Int) ≤ a := by
    intro a ha
    have := (hmem_uz a).mp ha
    omega
  have hf_null : f (-1) = -1 := by
    rw [hfdef]
    apply applyAll_of_not_mem
    intro p hp
    have h2 := snd_mem_of_mem_enumFrom uz 0 p hp
    have := (hmem_uz p.2).mp h2
    omega
  have hf_pos : ∀ v, v ∈ z → 0 ≤ v → f v = (rankIn v uz : Int) := by
    intro v hvz hv0
    have hvu : v ∈ uz := (hmem_uz v).mpr ⟨hvz, by omega⟩
    have hall := applyAll_enumFrom uz 0 v (pairwise_npUnique _)
      (by intro a ha; simpa using hge0 a ha)
    rw [hfdef]
    have henum : uz.enum = List.enumFrom 0 uz := rfl
    rw [henum, hall, if_pos hvu]
    simp
  have hz1map : relabelAll z uz.enum = z.map f := by
    rw [relabelAll_eq_map, hfdef]
  have hchar : ∀ v ∈ z, (v = -1 ∧ f v = -1) ∨ (0 ≤ v ∧ f v = (rankIn v uz : Int)) := by
    intro v hvz
    have := hv v hvz
    by_cases hneg : v = -1
    · exact Or.inl ⟨hneg, by rw [hneg]; exact hf_null⟩
    · exact Or.inr ⟨by omega, hf_pos v hvz (by omega)⟩
  have hlen : (z.map f).length = z.length := List.length_map z f
  have hne1 : z.map f ≠ [] := by
    intro h0
    exact hz (List.map_eq_nil_iff.mp h0)
  obtain ⟨M, hM, hMmem, hMub⟩ := npMax_spec (z.map f) hne1
  -- the maximum of the relabelled vector is the number of distinct labels minus one
  have hMval : M = (uz.length : Int) - 1 := by
    rcases List.eq_nil_or_concat uz with hnil | _
    · -- all entries are null
      have hall : ∀ v ∈ z, f v = -1 := by
        intro v hvz
        rcases hchar v hvz with ⟨_, h2⟩ | ⟨h1, h2⟩
        · exact h2
        · exfalso
          have : v ∈ uz := (hmem_uz v).mpr ⟨hvz, by omega⟩
          rw [hnil] at this
          simp at this
      obtain ⟨u, hu, hfu⟩ := List.mem_map.mp hMmem
      rw [hnil]
      simp
      rw [← hfu]
      exact hall u hu
    · have hm1 : 0 < uz.length := by
        rcases uz with _ | ⟨a, l⟩
        · rename_i h; rcases h with ⟨l', a', h⟩; simp at h
        · simp
      -- the top rank is attained
      have hjlt : uz.length - 1 < uz.length := by omega
      have htop : ((uz.length - 1 : Nat) : Int) ∈ z.map f := by
        set u := uz.get ⟨uz.length - 1, hjlt⟩ with hu
        have huu : u ∈ uz := List.get_mem uz _ hjlt
        have huz2 := (hmem_uz u).mp huu
        refine List.mem_map.mpr ⟨u, huz2.1, ?_⟩
        rw [hf_pos u huz2.1 (by omega), hu, rankIn_get uz (nodup_npUnique _) _ hjlt]
      have hub2 : ∀ v ∈ z.map f, v ≤ (uz.length : Int) - 1 := by
        intro v hvm
        obtain ⟨u, hu, hfu⟩ := List.mem_map.mp hvm
        rcases hchar u hu with ⟨_, h2⟩ | ⟨h1, h2⟩
        · rw [← hfu, h2]; omega
        · rw [← hfu, h2]
          have : u ∈ uz := (hmem_uz u).mpr ⟨hu, by omega⟩
          have := rankIn_lt_length u uz this
          omega
      have h1 := hMub _ htop
      have h2 := hub2 M hMmem
      have h3 : ((uz.length - 1 : Nat) : Int) = (uz.length : Int) - 1 := by
        omega
      omega
  have hredZ : reduceZ z = some (z.map f, M + 1) := by
    rw [reduceZ, ← huz, hz1map, hM]
  have hred : st.reduce z = some ({ st with k := M + 1 }, z.map f) := by
    rw [IMM.reduce, hredZ]
  refine ⟨{ st with k := M + 1 }, z.map f, hred, ?_, hlen, ?_, ?_, ?_⟩
  · simp [hMval]
  · intro i hi
    constructor
    · intro hzi
      rw [getD_map_lt f z i hi, hzi, hf_null]
    · intro hzi
      rw [getD_map_lt f z i hi, hf_pos _ (getD_mem_of_lt z i hi 0) hzi, huz]
  · intro v hvm
    obtain ⟨u, hu, hfu⟩ := List.mem_map.mp hvm
    rcases hchar u hu with ⟨_, h2⟩ | ⟨h1, h2⟩
    · exact Or.inl (by rw [← hfu, h2])
    · refine Or.inr ⟨by rw [← hfu, h2]; positivity, ?_⟩
      have : u ∈ uz := (hmem_uz u).mpr ⟨hu, by omega⟩
      have := rankIn_lt_length u uz this
      simp only [IMM.mk.injEq]
      rw [← hfu, h2, hMval]
      omega
  · intro j hj
    have hj2 : (j : Int) < M + 1 := hj
    have hjlt : j < uz.length := by omega
    set u := uz.get ⟨j, hjlt⟩ with hu
    have huu : u ∈ uz := List.get_mem uz _ hjlt
    have huz2 := (hmem_uz u).mp huu
    refine List.mem_map.mpr ⟨u, huz2.1, ?_⟩
    rw [hf_pos u huz2.1 (by omega), hu, rankIn_get uz (nodup_npUnique _) _ hjlt]

/-- C1 counterexample: on the empty assignment vector the claim asserts
reduce returns with self.k = 0, but the code fails there: z.max() raises
ValueError (zero-size array to reduction operation maximum), embedded as
none. -/
theorem c1_reduce_empty_fails :
    IMM.reduce ⟨1, 1/2, 0, [1], 1/2, none⟩ [] = none := rfl

/-- C1 witness: the amended theorem applied to z = [3, -1, 0, 3]. -/
theorem c1_reduce_compacts_labels_witness :
    ([3, -1, 0, 3] : List Int) ≠ [] ∧
    ∃ st1 z1, IMM.reduce ⟨1, 1/2, 0, [1], 1/2, none⟩ [3, -1, 0, 3] = some (st1, z1) ∧
      st1.k = 2 := by
  refine ⟨by decide, ?_⟩
  obtain ⟨st1, z1, h1, h2, _⟩ :=
    c1_reduce_compacts_labels ⟨1, 1/2, 0, [1], 1/2, none⟩ [3, -1, 0, 3]
      (by decide) (by decide)
  refine ⟨st1, z1, h1, ?_⟩
  rw [h2]
  decide

/-- The replacement z[z==self.k] = self.k + np.arange(np.sum(z==self.k))
shared by IMM.sample_indicator and MixedIMM.sample_indicator: entries equal
to k receive k + 0, k + 1, k + 2, ... in positional order (c is the running
count of replacements already made). -/
def assignNew (k c : Int) : List Int → List Int
  | [] => []
  | v :: l => if v = k then (k + c) :: assignNew k (c + 1) l else v :: assignNew k c l

/-- IMM.sample_indicator (imm.py lines 297-317).  The categorical draw done
by the external collaborator BGMM.sample_indicator is the oracle argument e
(one outcome per row of the likelihood matrix; the outcome self.k means the
last, new-component column); the rows drawing the new column then receive
distinct provisional labels. -/
def IMM.sample_indicator (st : IMM) (e : List Int) : List Int :=
  assignNew st.k 0 e

/-- The column np.reshape(null_class_proba*self.null_dens, (n,1)) prepended
by MixedIMM.sample_indicator. -/
def conditional_like_0 (ncp : List ℚ) (nd : ℚ) : List ℚ := ncp.map (· * nd)

/-- ((1-null_class_proba)*like.T).T of MixedIMM.sample_indicator: the numpy
broadcast over the transpose scales row i of like by 1 - ncp[i]. -/
def conditional_like_1 (ncp : List ℚ) (like : List (List ℚ)) : List (List ℚ) :=
  List.zipWith (fun p row => row.map (fun a => (1 - p) * a)) ncp like

/-- np.hstack((conditional_like_0, conditional_like_1)): the categorical
weight matrix of MixedIMM.sample_indicator; none when self.null_dens was
never set, since None * array raises TypeError in Python. -/
def MixedIMM.conditional_like (st : MixedIMM) (like : List (List ℚ)) (ncp : List ℚ) :
    Option (List (List ℚ)) :=
  match st.null_dens with
  | none => none
  | some nd =>
    some (List.zipWith (fun a row => a :: row) (conditional_like_0 ncp nd)
      (conditional_like_1 ncp like))

/-- MixedIMM.sample_indicator (imm.py lines 591-616): the external
categorical draw over the k+2 columns of conditional_like is the oracle e;
the code shifts every outcome down by one (z = BGMM.sample_indicator(...)-1,
turning the prepended null column into the label -1) and then gives rows
that drew the new-component column (shifted value self.k) distinct new
labels. -/
def MixedIMM.sample_indicator (st : MixedIMM) (like : List (List ℚ)) (ncp : List ℚ)
    (e : List Int) : Option (List Int) :=
  match st.conditional_like like ncp with
  | none => none
  | some _ => some (assignNew st.k 0 (e.map (fun c => c - 1)))

theorem length_assignNew (k c : Int) (l : List Int) :
    (assignNew k c l).length = l.length := by
  induction l generalizing c with
  | nil => rfl
  | cons v l ih =>
    by_cases h : v = k <;> simp [assignNew, h, ih]

theorem assignNew_getD (k c : Int) (l : List Int) (i : Nat) (h : i < l.length) :
    (assignNew k c l).getD i 0 =
      if l.getD i 0 = k then k + c + ((l.take i).countP (fun v => decide (v = k)) : Int)
      else l.getD i 0 := by
  induction l generalizing c i with
  | nil => simp at h
  | cons v l ih =>
    cases i with
    | zero =>
      by_cases hv : v = k <;>
        simp [assignNew, hv]
    | succ i =>
      have hi : i < l.length := by simpa using h
      by_cases hv : v = k
      · rw [assignNew, if_pos hv, List.getD_cons_succ, List.getD_cons_succ,
          List.take_succ_cons, List.countP_cons, ih (c + 1) i hi]
        by_cases hl : l.getD i 0 = k
        · rw [if_pos hl, if_pos hl]
          simp [hv]
          ring
        · rw [if_neg hl, if_neg hl]
      · rw [assignNew, if_neg hv, List.getD_cons_succ, List.getD_cons_succ,
          List.take_succ_cons, List.countP_cons, ih c i hi]
        by_cases hl : l.getD i 0 = k
        · rw [if_pos hl, if_pos hl]
          simp [hv]
        · rw [if_neg hl, if_neg hl]

theorem drop_eq_getD_cons (l : List Int) (i : Nat) (h : i < l.length) (d : Int) :
    l.drop i = l.getD i d :: l.drop (i + 1) := by
  induction l generalizing i with
  | nil => simp at h
  | cons a l ih =>
    cases i with
    | zero => rfl
    | succ i =>
      rw [List.drop_succ_cons, List.getD_cons_succ, List.drop_succ_cons]
      exact ih i (by simpa using h)

theorem countP_take_lt (l : List Int) (p : Int → Bool) (i j : Nat) (hij : i < j)
    (hj : j ≤ l.length) (hpi : p (l.getD i 0) = true) :
    (l.take i).countP p < (l.take j).countP p := by
  have hi : i < l.length := lt_of_lt_of_le hij hj
  have hsplit : l.take j = l.take i ++ (l.drop i).take (j - i) := by
    conv_lhs => rw [show j = i + (j - i) by omega]
    rw [List.take_add]
  have hdrop : l.drop i = l.getD i 0 :: l.drop (i + 1) := drop_eq_getD_cons l i hi 0
  have hji : j - i = (j - i - 1) + 1 := by omega
  rw [hsplit, List.countP_append, hdrop, hji, List.take_succ_cons, List.countP_cons, hpi]
  simp

theorem getD_map_lt' {α β : Type} (f : α → β) (l : List α)
    (i : Nat) (h : i < l.length) (d : α) (d' : β) :
    (l.map f).getD i d' = f (l.getD i d) := by
  induction l generalizing i with
  | nil => simp at h
  | cons a l ih =>
    cases i with
    | zero => rfl
    | succ i => exact ih i (by simpa using h)

theorem getD_zipWith_lt {α β γ : Type}
    (f : α → β → γ) (as : List α) (bs : List β) (i : Nat)
    (ha : i < as.length) (hb : i < bs.length) (da : α) (db : β) (dc : γ) :
    (List.zipWith f as bs).getD i dc = f (as.getD i da) (bs.getD i db) := by
  induction as generalizing bs i with
  | nil => simp at ha
  | cons a as ih =>
    cases bs with
    | nil => simp at hb
    | cons b bs =>
      cases i with
      | zero => rfl
      | succ i => exact ih bs i (by simpa using ha) (by simpa using hb)

theorem mixed_sample_indicator_eq (st : MixedIMM) (nd : ℚ) (hnd : st.null_dens = some nd)
    (like : List (List ℚ)) (ncp : List ℚ) (e : List Int) :
    st.sample_indicator like ncp e =
      some (assignNew st.k 0 (e.map (fun c => c - 1))) := by
  simp [MixedIMM.sample_indicator, MixedIMM.conditional_like, hnd]

/-- C2: in one call to sample_indicator, every row whose categorical draw
selects the new-component outcome receives the distinct provisional label
k + (number of earlier rows drawn as new), counting upward from the current
k, so no two rows drawn as new share a label.  First conjunct: IMM, where
the draw outcome self.k denotes the last likelihood column; second
conjunct: MixedIMM, where (because of the prepended null column and the
shift by -1) the draw outcome self.k + 1 denotes the last column. -/
theorem c2_sample_indicator_distinct_new_labels :
    (∀ (st : IMM) (e : List Int) (i j : Nat), i < j → j < e.length →
      e.getD i 0 = st.k → e.getD j 0 = st.k →
      (st.sample_indicator e).getD i 0 =
          st.k + (((e.take i).countP (fun v => decide (v = st.k))) : Int) ∧
      (st.sample_indicator e).getD j 0 =
          st.k + (((e.take j).countP (fun v => decide (v = st.k))) : Int) ∧
      (st.sample_indicator e).getD i 0 ≠ (st.sample_indicator e).getD j 0) ∧
    (∀ (st : MixedIMM) (like : List (List ℚ)) (ncp : List ℚ) (e z : List Int),
      st.sample_indicator like ncp e = some z →
      ∀ i j : Nat, i < j → j < e.length →
      e.getD i 0 = st.k + 1 → e.getD j 0 = st.k + 1 →
      z.getD i 0 ≠ z.getD j 0) := by
  constructor
  · intro st e i j hij hj hei hej
    have hi : i < e.length := lt_trans hij hj
    have h1 := assignNew_getD st.k 0 e i hi
    have h2 := assignNew_getD st.k 0 e j hj
    rw [hei, if_pos rfl] at h1
    rw [hej, if_pos rfl] at h2
    have hcnt := countP_take_lt e (fun v => decide (v = st.k)) i j hij (le_of_lt hj)
      (by simpa using hei)
    have hs : st.sample_indicator e = assignNew st.k 0 e := rfl
    refine ⟨by rw [hs, h1]; ring, by rw [hs, h2]; ring, ?_⟩
    rw [hs, h1, h2]
    intro hcontra
    omega
  · intro st like ncp e z hz i j hij hj hei hej
    rcases hnd : st.null_dens with _ | nd
    · rw [MixedIMM.sample_indicator, MixedIMM.conditional_like, hnd] at hz
      exact absurd hz (by simp)
    · rw [mixed_sample_indicator_eq st nd hnd like ncp e] at hz
      have hzeq : z = assignNew st.k 0 (e.map (fun c => c - 1)) := by
        exact (Option.some.injEq _ _).mp hz.symm
      have hi : i < e.length := lt_trans hij hj
      have hlen : (e.map (fun c => c - 1)).length = e.length := List.length_map e _
      have hdi : (e.map (fun c => c - 1)).getD i 0 = st.k := by
        rw [getD_map_lt (fun c => c - 1) e i hi 0, hei]; ring
      have hdj : (e.map (fun c => c - 1)).getD j 0 = st.k := by
        rw [getD_map_lt (fun c => c - 1) e j hj 0, hej]; ring
      have h1 := assignNew_getD st.k 0 (e.map (fun c => c - 1)) i (by rw [hlen]; exact hi)
      have h2 := assignNew_getD st.k 0 (e.map (fun c => c - 1)) j (by rw [hlen]; exact hj)
      rw [hdi, if_pos rfl] at h1
      rw [hdj, if_pos rfl] at h2
      have hcnt := countP_take_lt (e.map (fun c => c - 1))
        (fun v => decide (v = st.k)) i j hij (by rw [hlen]; exact le_of_lt hj)
        (by simpa using hdi)
      rw [hzeq, h1, h2]
      intro hcontra
      omega

/-- C2 witness: the theorem applied, for IMM, to k = 2 and draw outcomes
[2, 0, 2] at rows 0 and 2, and, for MixedIMM, to k = 2 and draw outcomes
[3, 0, 3] (the new column of the k+2-wide matrix) at rows 0 and 2. -/
theorem c2_sample_indicator_distinct_new_labels_witness :
    ((IMM.sample_indicator ⟨1, 1/2, 2, [1], 1/2, none⟩ [2, 0, 2]).getD 0 0 ≠
      (IMM.sample_indicator ⟨1, 1/2, 2, [1], 1/2, none⟩ [2, 0, 2]).getD 2 0) ∧
    (([2, -1, 3] : List Int).getD 0 0 ≠ ([2, -1, 3] : List Int).getD 2 0) := by
  constructor
  · exact (c2_sample_indicator_distinct_new_labels.1 ⟨1, 1/2, 2, [1], 1/2, none⟩
      [2, 0, 2] 0 2 (by decide) (by decide) (by decide) (by decide)).2.2
  · exact c2_sample_indicator_distinct_new_labels.2 ⟨⟨1, 1/2, 2, [1], 1/2, none⟩, some 1⟩
      [] [] [3, 0, 3] [2, -1, 3] (by rfl) 0 2 (by decide) (by decide) (by decide) (by decide)

/-- C4: MixedIMM.sample_indicator builds its categorical weight matrix by
prepending the per-point null column null_class_proba[i] * null_dens and
scaling every other column of like by 1 - null_class_proba[i] per point,
and shifts the drawn outcome indices down by one: a row drawing the
prepended column (outcome 0) receives label -1, and a row drawing an
existing-component column c with 1 ≤ c ≤ k receives that component's index
c - 1. -/
theorem c4_mixed_sample_indicator_prepends_null (st : MixedIMM) (nd : ℚ)
    (hnd : st.null_dens = some nd) (like : List (List ℚ)) (ncp : List ℚ)
    (hlen : ncp.length = like.length) (e z : List Int)
    (hz : st.sample_indicator like ncp e = some z) (hk : 0 ≤ st.k) :
    (∃ M, st.conditional_like like ncp = some M ∧
      M.length = like.length ∧
      (∀ i, i < like.length → M.getD i [] =
        (ncp.getD i 0 * nd) ::
          (like.getD i []).map (fun a => (1 - ncp.getD i 0) * a))) ∧
    (∀ i, i < e.length →
      (e.getD i 0 = 0 → z.getD i 0 = -1) ∧
      (1 ≤ e.getD i 0 → e.getD i 0 ≤ st.k → z.getD i 0 = e.getD i 0 - 1)) := by
  constructor
  · refine ⟨List.zipWith (fun a row => a :: row) (conditional_like_0 ncp nd)
      (conditional_like_1 ncp like), ?_, ?_, ?_⟩
    · rw [MixedIMM.conditional_like, hnd]
    · rw [List.length_zipWith, conditional_like_0, conditional_like_1,
        List.length_map, List.length_zipWith, hlen]
      simp
    · intro i hi
      have h0 : (conditional_like_0 ncp nd).getD i 0 = ncp.getD i 0 * nd :=
        getD_map_lt' (fun p => p * nd) ncp i (by rw [hlen]; exact hi) 0 0
      have h1 : (conditional_like_1 ncp like).getD i [] =
          (like.getD i []).map (fun a => (1 - ncp.getD i 0) * a) := by
        rw [conditional_like_1]
        exact getD_zipWith_lt (fun p row => row.map (fun a => (1 - p) * a)) ncp like i
          (by rw [hlen]; exact hi) hi 0 [] []
      rw [getD_zipWith_lt (fun a row => a :: row) _ _ i
        (by rw [conditional_like_0, List.length_map, hlen]; exact hi)
        (by rw [conditional_like_1, List.length_zipWith, hlen]; simpa using hi) 0 [] [],
        h0, h1]
  · intro i hi
    rw [mixed_sample_indicator_eq st nd hnd like ncp e] at hz
    have hzeq : z = assignNew st.k 0 (e.map (fun c => c - 1)) :=
      (Option.some.injEq _ _).mp hz.symm
    have hlen2 : (e.map (fun c => c - 1)).length = e.length := List.length_map e _
    have hd : (e.map (fun c => c - 1)).getD i 0 = e.getD i 0 - 1 :=
      getD_map_lt (fun c => c - 1) e i hi 0
    have hval := assignNew_getD st.k 0 (e.map (fun c => c - 1)) i (by rw [hlen2]; exact hi)
    constructor
    · intro h0
      have hne : (e.map (fun c => c - 1)).getD i 0 ≠ st.k := by
        rw [hd, h0]; omega
      rw [hzeq, hval, if_neg hne, hd, h0]
      ring
    · intro hge hle
      have hne : (e.map (fun c => c - 1)).getD i 0 ≠ st.k := by
        rw [hd]; omega
      rw [hzeq, hval, if_neg hne, hd]

/-- C4 witness: the theorem applied with k = 2, null_dens = 1,
like = [[1, 2], [3, 4]], null_class_proba = [1/2, 1/3] and draw outcomes
[0, 2]: row 0 drew the null column and gets -1, row 1 drew an existing
component column and gets index 1. -/
theorem c4_mixed_sample_indicator_prepends_null_witness :
    (([-1, 1] : List Int).getD 0 0 = -1) ∧ (([-1, 1] : List Int).getD 1 0 = 2 - 1) := by
  have h := c4_mixed_sample_indicator_prepends_null ⟨⟨1, 1/2, 2, [1], 1/2, none⟩, some 1⟩
    1 (by rfl) [[1, 2], [3, 4]] [1/2, 1/3] (by rfl) [0, 2] [-1, 1] (by rfl) (by decide)
  refine ⟨(h.2 0 (by decide)).1 (by decide), ?_⟩
  have h2 := (h.2 1 (by decide)).2 (by decide) (by decide)
  exact h2

/-- Modelled from the spec: BGMM.pop returns the per-component occupation
counts of the assignment vector, one count for each of the k active
components (bgmm.py, the base class, is not under src/; section 6 of the
spec gives its contract: pop(assignments) -> counts per existing
component). -/
def pop (k : Int) (z : List Int) : List ℚ :=
  (List.range k.toNat).map (fun (j : Nat) => (z.countP (fun v => decide (v = (j : Int))) : ℚ))

/-- IMM.update_weights (imm.py lines 283-294): hstack a zero count for the
open new component onto pop(z), add prior_weights to every entry and
normalize by the total. -/
def IMM.update_weights (st : IMM) (z : List Int) : IMM :=
  let popv := pop st.k z ++ [0]
  let w := popv.map (fun p => p + st.prior_weights)
  { st with weights := w.map (fun a => a / w.sum) }

/-- MixedIMM inherits update_weights unchanged: its class body defines no
override, so the null-class variant resamples exactly the same weights. -/
def MixedIMM.update_weights (st : MixedIMM) (z : List Int) : MixedIMM :=
  { st with toIMM := st.toIMM.update_weights z }

theorem sum_map_div (l : List ℚ) (s : ℚ) :
    (l.map (fun a => a / s)).sum = l.sum / s := by
  induction l with
  | nil => simp
  | cons a l ih => simp [ih, add_div]

theorem sum_map_add_const (l : List ℚ) (c : ℚ) :
    (l.map (fun p => p + c)).sum = l.sum + l.length * c := by
  induction l with
  | nil => simp
  | cons a l ih =>
    simp [ih]
    ring

theorem update_weights_spec (st : IMM) (z : List Int) (hpw : 0 < st.prior_weights) :
    (st.update_weights z).weights.length = st.k.toNat + 1 ∧
    (st.update_weights z).weights.sum = 1 := by
  have hlenpop : (pop st.k z).length = st.k.toNat := by
    rw [pop, List.length_map, List.length_range]
  have hlen0 : (pop st.k z ++ [0]).length = st.k.toNat + 1 := by
    rw [List.length_append, hlenpop]
    rfl
  have hnn : 0 ≤ (pop st.k z ++ [0]).sum := by
    apply List.sum_nonneg
    intro a ha
    rcases List.mem_append.mp ha with h | h
    · rw [pop] at h
      obtain ⟨j, _, hj⟩ := List.mem_map.mp h
      rw [← hj]
      positivity
    · simp at h
      rw [h]
  have hsum : ((pop st.k z ++ [0]).map (fun p => p + st.prior_weights)).sum =
      (pop st.k z ++ [0]).sum + (st.k.toNat + 1) * st.prior_weights := by
    rw [sum_map_add_const, hlen0]
    push_cast
    ring
  have hpos : 0 < ((pop st.k z ++ [0]).map (fun p => p + st.prior_weights)).sum := by
    rw [hsum]
    have : 0 < ((st.k.toNat : ℚ) + 1) * st.prior_weights := by positivity
    linarith
  constructor
  · simp only [IMM.update_weights, List.length_map]
    exact hlen0
  · simp only [IMM.update_weights]
    rw [sum_map_div, div_self (ne_of_gt hpos)]

/-- C3 (amended): after every call to update_weights(z) the weights vector
sums to exactly 1 (the arithmetic normalizes by the sum, which is positive
whenever prior_weights, i.e. alpha, is positive) and has length k+1 — both
for the plain IMM and for MixedIMM: MixedIMM does not override
update_weights, so the null-class variant also carries k+1 weights, not
k+2 as the original claim asserted (see the counterexample). -/
theorem c3_update_weights_sum_one_length (st : IMM) (mst : MixedIMM) (z zm : List Int)
    (hpw : 0 < st.prior_weights) (hpwm : 0 < mst.prior_weights) :
    ((st.update_weights z).weights.length = st.k.toNat + 1 ∧
      (st.update_weights z).weights.sum = 1) ∧
    ((mst.update_weights zm).weights.length = mst.k.toNat + 1 ∧
      (mst.update_weights zm).weights.sum = 1) :=
  ⟨update_weights_spec st z hpw, update_weights_spec mst.toIMM zm hpwm⟩

/-- C3 counterexample: the claim states the MixedIMM weights vector has
length k+2; at k = 1 with z = [0, -1] the inherited update_weights
produces a vector of length 2 = k+1, not 3 = k+2. -/
theorem c3_mixed_weights_length_counterexample :
    (MixedIMM.update_weights ⟨⟨1, 1/2, 1, [1], 1/2, none⟩, some 1⟩ [0, -1]).weights.length = 2 ∧
    (2 : Nat) ≠ 1 + 2 := by
  constructor
  · exact (update_weights_spec ⟨1, 1/2, 1, [1], 1/2, none⟩ [0, -1] (by norm_num)).1
  · decide

/-- C3 witness: the amended theorem applied at k = 1, alpha = 1/2. -/
theorem c3_update_weights_sum_one_length_witness :
    ((IMM.update_weights ⟨1, 1/2, 1, [1], 1/2, none⟩ [0, -1]).weights.length = 2 ∧
      (IMM.update_weights ⟨1, 1/2, 1, [1], 1/2, none⟩ [0, -1]).weights.sum = 1) ∧
    ((MixedIMM.update_weights ⟨⟨1, 1/2, 1, [1], 1/2, none⟩, some 1⟩ [0, -1]).weights.length = 2 ∧
      (MixedIMM.update_weights ⟨⟨1, 1/2, 1, [1], 1/2, none⟩, some 1⟩ [0, -1]).weights.sum = 1) :=
  c3_update_weights_sum_one_length ⟨1, 1/2, 1, [1], 1/2, none⟩
    ⟨⟨1, 1/2, 1, [1], 1/2, none⟩, some 1⟩ [0, -1] [0, -1] (by norm_num) (by norm_num)

/-- IMM.set_constant_densities (imm.py lines 73-83) is declared as
def set_constant_densities(prior_dens=None) — without a self parameter.
A method call st.set_constant_densities(c) therefore passes the instance
and c to a one-parameter function and raises TypeError; a call with no
explicit argument binds prior_dens to the instance, and the body
self.prior_dens = prior_dens then raises NameError, self being unbound.
Either way the call fails and no field is ever set. -/
def IMM.set_constant_densities_call (_st : IMM) (arg : Option ℚ) : Except PyError IMM :=
  match arg with
  | some _ => Except.error PyError.typeError
  | none => Except.error PyError.nameError

/-- MixedIMM.set_constant_densities (imm.py lines 406-419): correctly
declared with self; sets both constant densities. -/
def MixedIMM.set_constant_densities (st : MixedIMM) (nulld priord : Option ℚ) :
    MixedIMM :=
  { st with null_dens := nulld, prior_dens := priord }

/-- C8: the claim says calling set_constant_densities with a constant c on
an IMM instance succeeds and sets prior_dens to c; in the code the IMM
method is missing its self parameter, so the call raises TypeError (or
NameError when invoked with no argument) and prior_dens is never set.
MixedIMM's override is correct and does set null_dens and prior_dens. -/
theorem c8_imm_set_constant_densities_raises :
    (IMM.set_constant_densities_call ⟨1, 1/2, 0, [1], 1/2, none⟩ (some 1) =
      Except.error PyError.typeError) ∧
    (IMM.set_constant_densities_call ⟨1, 1/2, 0, [1], 1/2, none⟩ none =
      Except.error PyError.nameError) ∧
    (MixedIMM.set_constant_densities ⟨⟨1, 1/2, 0, [1], 1/2, none⟩, none⟩
        (some 1) (some (1/2)) =
      ⟨⟨1, 1/2, 0, [1], 1/2, some (1/2)⟩, some 1⟩) :=
  ⟨rfl, rfl, rfl⟩

/-- IMM.likelihood_under_the_prior (imm.py lines 319-354): when prior_dens
was fixed, return prior_dens * np.ones(x.shape[0]); otherwise compute the
Student-t marginal density of every point under the prior.  That marginal
(lines 334-354) is a transcendental computation in gammaln, log and exp of
the prior hyperparameters; it is abstracted as the function argument
marginal, which the constant branch never evaluates. -/
def IMM.likelihood_under_the_prior (st : IMM) (marginal : List (List ℚ) → List ℚ)
    (x : List (List ℚ)) : List ℚ :=
  match st.prior_dens with
  | some c => List.replicate x.length c
  | none => marginal x

/-- C9: when prior_dens has been fixed to the constant c,
likelihood_under_the_prior returns a vector of length x.shape[0] whose
every entry equals exactly c — for every data matrix x and regardless of
the prior hyperparameters, i.e. of the marginal computation they induce. -/
theorem c9_constant_prior_density (st : IMM) (c : ℚ)
    (marginal : List (List ℚ) → List ℚ) (x : List (List ℚ)) :
    ({ st with prior_dens := some c } : IMM).likelihood_under_the_prior marginal x =
      List.replicate x.length c ∧
    (({ st with prior_dens := some c } : IMM).likelihood_under_the_prior marginal x).length =
      x.length :=
  ⟨rfl, by simp [IMM.likelihood_under_the_prior]⟩

/-- x[mask]: positional boolean-mask selection (numpy). -/
def maskSelect {α : Type} : List Bool → List α → List α
  | b :: ms, a :: l => if b then a :: maskSelect ms l else maskSelect ms l
  | _, _ => []

/-- l[mask] = vals (numpy): the masked positions receive the entries of
vals in order; the other positions keep their value. -/
def maskScatter {α : Type} : List Bool → List α → List α → List α
  | b :: ms, a :: l, vals =>
    if b then
      match vals with
      | [] => a :: maskScatter ms l []
      | v :: vs => v :: maskScatter ms l vs
    else a :: maskScatter ms l vals
  | _, l, _ => l

/-- idx[positions] = k (numpy fancy assignment over a position list). -/
def assignIdx (idx : List Int) (ps : List Nat) (k : Int) : List Int :=
  ps.foldl (fun acc p => acc.set p k) idx

/-- The scalar-kfold partition of cross_validated_update (imm.py lines
199-205, and identically lines 550-556 of the MixedIMM version): idx
starts as -np.ones(n_samples); the block size is
j = np.ceil(n_samples/kfold), where n_samples/kfold is Python 2 integer
division, so j = n / K and the np.ceil is a no-op on the integer-valued
float; fold k is assigned the permuted positions perm[k*j : min(n, j*(k+1))].
Positions beyond K*j are never assigned and keep the fold index -1. -/
def cvFoldIdx (n K : Nat) (perm : List Nat) : List Int :=
  (List.range K).foldl
    (fun idx k => assignIdx idx
      ((perm.drop (k * (n / K))).take (min n ((n / K) * (k + 1)) - k * (n / K))) (k : Int))
    (List.replicate n (-1))

/-- Per-fold state of cross_validated_update: the component count self.k,
the abstract BGMM parameter state, the assignment vector z and the
accumulated held-out likelihood slike. -/
structure CVState (σ : Type) where
  k : Int
  s : σ
  z : List Int
  slike : List ℚ

/-- The collaborators called inside the fold loop, as total functions of an
abstract BGMM parameter state σ: IMM.update (which re-expands the priors
to the new k and calls the external BGMM.update), IMM.likelihood on the
test rows (built on the external unweighted_likelihood and the weights),
and the categorical draw inside sample_indicator on the test likelihood
matrix (for MixedIMM it absorbs the null-column construction checked in
C4 and the shift by -1). -/
structure CVExt (σ : Type) where
  update : σ → Int → List (List ℚ) → List Int → σ
  likelihood : σ → Int → List (List ℚ) → List ℚ → List (List ℚ)
  draw : σ → List (List ℚ) → List Int

/-- One iteration of the fold loop of cross_validated_update (imm.py lines
216-233): split off the test rows of fold k, reduce the training
assignments (this is where an empty training partition makes z.max()
raise), update the model on the training rows, evaluate the held-out
likelihood, store its row sums into slike[test], and redraw z[test] with
sample_indicator (whose distinct-new-label post-step is assignNew). -/
def cvFoldStep {σ : Type} (ext : CVExt σ) (x : List (List ℚ)) (plike : List ℚ)
    (idx : List Int) (st : CVState σ) (k : Nat) : Option (CVState σ) :=
  let testMask := idx.map (fun v => decide (v = (k : Int)))
  let trainMask := testMask.map (fun b => !b)
  match reduceZ (maskSelect trainMask st.z) with
  | none => none
  | some (ztr, knew) =>
    let z1 := maskScatter trainMask st.z ztr
    let s1 := ext.update st.s knew (maskSelect trainMask x) ztr
    let alike := ext.likelihood s1 knew (maskSelect testMask x) (maskSelect testMask plike)
    let slike1 := maskScatter testMask st.slike (alike.map List.sum)
    let ztest := assignNew knew 0 (ext.draw s1 alike)
    some ⟨knew, s1, maskScatter testMask z1 ztest, slike1⟩

/-- The fold loop for k in range(kmax) of cross_validated_update; a failing
fold (empty training partition) aborts with none, modelling the ValueError
propagating out of the Python loop. -/
def cvLoop {σ : Type} (ext : CVExt σ) (x : List (List ℚ)) (plike : List ℚ)
    (idx : List Int) : List Nat → CVState σ → Option (CVState σ)
  | [], st => some st
  | k :: ks, st =>
    match cvFoldStep ext x plike idx st k with
    | none => none
    | some st1 => cvLoop ext x plike idx ks st1

/-- IMM.cross_validated_update (imm.py lines 175-235; MixedIMM's version,
lines 523-587, duplicates the partitioning, the size check and the loop
verbatim, differing only in the class's sample_indicator used for the
redraw, which enters through ext.draw).  kfold is either a scalar K
(Sum.inl) or a per-point fold-label vector (Sum.inr); perm is the random
permutation np.argsort(np.random.rand(n_samples)), an oracle argument.
A fold-label vector whose size differs from n_samples raises ValueError
before the loop; an empty training partition inside the loop raises from
z.max() on an empty array. -/
def cross_validated_update {σ : Type} (ext : CVExt σ) (k0 : Int) (s0 : σ)
    (x : List (List ℚ)) (z : List Int) (plike : List ℚ)
    (kfold : Nat ⊕ List Int) (perm : List Nat) : Except PyError (CVState σ) :=
  let n := x.length
  match kfold with
  | Sum.inl K =>
    match cvLoop ext x plike (cvFoldIdx n K perm) (List.range K)
        ⟨k0, s0, z, List.replicate n 0⟩ with
    | none => Except.error PyError.zeroSizeMax
    | some st => Except.ok st
  | Sum.inr kfv =>
    if kfv.length ≠ n then Except.error PyError.kfoldSize
    else
      let uk := npUnique kfv
      let idx := kfv.map (fun v => (rankIn v uk : Int))
      let kmax := match npMax uk with | none => 0 | some m => (m + 1).toNat
      match cvLoop ext x plike idx (List.range kmax) ⟨k0, s0, z, List.replicate n 0⟩ with
      | none => Except.error PyError.zeroSizeMax
      | some st => Except.ok st

/-- C5: the claim says the scalar-kfold partition cuts the permutation into
K contiguous blocks of size ceil(N/K) so that every point lands in exactly
one fold.  The code computes j = np.ceil(n_samples/kfold) after Python 2
integer division has already floored the quotient, so j = floor(N/K): with
N = 5, K = 2 (identity permutation) the two blocks have size 2, and the
fifth permuted point keeps the initializer -1 — it belongs to no fold and
is never held out. -/
theorem c5_scalar_kfold_partition_leaves_point_out :
    cvFoldIdx 5 2 [0, 1, 2, 3, 4] = [0, 0, 1, 1, -1] ∧
    (cvFoldIdx 5 2 [0, 1, 2, 3, 4]).getD 4 0 = -1 := by
  constructor <;> rfl

/-- C7: a non-scalar kfold whose number of elements differs from the number
of data points makes cross_validated_update raise
ValueError('kfold and x do not have the same size') immediately: the check
precedes the fold loop, so no reduce/update has run and no state is
produced — the error return carries no successor state, for any external
collaborators, any model state and any draw. -/
theorem c7_kfold_size_mismatch_raises {σ : Type} (ext : CVExt σ) (k0 : Int) (s0 : σ)
    (x : List (List ℚ)) (z : List Int) (plike : List ℚ) (kfv : List Int)
    (perm : List Nat) (hsz : kfv.length ≠ x.length) :
    cross_validated_update ext k0 s0 x z plike (Sum.inr kfv) perm =
      Except.error PyError.kfoldSize := by
  simp only [cross_validated_update]
  rw [if_pos hsz]

/-- C7 witness: a two-entry fold vector against a one-point dataset. -/
theorem c7_kfold_size_mismatch_raises_witness :
    ([0, 0] : List Int).length ≠ ([[(0 : ℚ)]] : List (List ℚ)).length ∧
    cross_validated_update
      (⟨fun s _ _ _ => s, fun _ _ _ _ => [], fun _ _ => []⟩ : CVExt Unit)
      0 () [[(0 : ℚ)]] [0] [1] (Sum.inr [0, 0]) [0] = Except.error PyError.kfoldSize :=
  ⟨by decide,
    c7_kfold_size_mismatch_raises ⟨fun s _ _ _ => s, fun _ _ _ _ => [], fun _ _ => []⟩
      0 () [[(0 : ℚ)]] [0] [1] [0, 0] [0] (by decide)⟩

theorem take_one_drop {α : Type} (l : List α) (i : Nat) (h : i < l.length) (d : α) :
    (l.drop i).take 1 = [l.getD i d] := by
  induction l generalizing i with
  | nil => simp at h
  | cons a l ih =>
    cases i with
    | zero => rfl
    | succ i =>
      rw [List.drop_succ_cons, List.getD_cons_succ]
      exact ih i (by simpa using h)

theorem getD_mem_lt {α : Type} (l : List α) (i : Nat) (h : i < l.length) (d : α) :
    l.getD i d ∈ l := by
  induction l generalizing i with
  | nil => simp at h
  | cons a l ih =>
    cases i with
    | zero => exact List.mem_cons_self a l
    | succ i => exact List.mem_cons_of_mem a (ih i (by simpa using h))

theorem getD_set_self (l : List Int) (p : Nat) (v d : Int) (h : p < l.length) :
    (l.set p v).getD p d = v := by
  induction l generalizing p with
  | nil => simp at h
  | cons a l ih =>
    cases p with
    | zero => rfl
    | succ p =>
      rw [List.set_cons_succ, List.getD_cons_succ]
      exact ih p (by simpa using h)

theorem getD_set_ne (l : List Int) (p q : Nat) (v d : Int) (h : p ≠ q) :
    (l.set p v).getD q d = l.getD q d := by
  induction l generalizing p q with
  | nil => rfl
  | cons a l ih =>
    cases p with
    | zero =>
      cases q with
      | zero => exact absurd rfl h
      | succ q => rfl
    | succ p =>
      cases q with
      | zero => rfl
      | succ q =>
        rw [List.set_cons_succ, List.getD_cons_succ, List.getD_cons_succ]
        exact ih p q (fun he => h (by rw [he]))

theorem mem_eq_of_getD (l : List Int) (c : Int)
    (h : ∀ q, q < l.length → l.getD q (-1) = c) : ∀ v ∈ l, v = c := by
  intro v hv
  obtain ⟨i, hi⟩ := List.mem_iff_get.mp hv
  have h2 := h i.1 i.2
  rw [List.getD_eq_get l (-1) i.2] at h2
  rw [← hi]
  simpa using h2

theorem length_assignIdx (idx : List Int) (ps : List Nat) (c : Int) :
    (assignIdx idx ps c).length = idx.length := by
  induction ps generalizing idx with
  | nil => rfl
  | cons p ps ih =>
    have h : assignIdx idx (p :: ps) c = assignIdx (idx.set p c) ps c := rfl
    rw [h, ih, List.length_set]

theorem length_foldl_assignIdx (g : Nat → List Nat) (ks : List Nat) (idx : List Int) :
    (ks.foldl (fun acc k => assignIdx acc (g k) (k : Int)) idx).length = idx.length := by
  induction ks generalizing idx with
  | nil => rfl
  | cons k ks ih => rw [List.foldl_cons, ih, length_assignIdx]

theorem length_cvFoldIdx (n K : Nat) (perm : List Nat) :
    (cvFoldIdx n K perm).length = n := by
  rw [cvFoldIdx, length_foldl_assignIdx
    (fun k => (perm.drop (k * (n / K))).take (min n ((n / K) * (k + 1)) - k * (n / K))),
    List.length_replicate]

theorem assignIdx_getD_const (ps : List Nat) (idx : List Int) (c : Int) (p : Nat)
    (hp : p < idx.length) (h : p ∈ ps ∨ idx.getD p (-1) = c) :
    (assignIdx idx ps c).getD p (-1) = c := by
  induction ps generalizing idx with
  | nil =>
    rcases h with h | h
    · simp at h
    · exact h
  | cons q ps ih =>
    have hstep : assignIdx idx (q :: ps) c = assignIdx (idx.set q c) ps c := rfl
    rw [hstep]
    apply ih (idx.set q c) (by rw [List.length_set]; exact hp)
    by_cases hqp : q = p
    · right
      rw [hqp]
      exact getD_set_self idx p c (-1) hp
    · rcases h with h | h
      · rcases List.mem_cons.mp h with h1 | h1
        · exact absurd h1.symm hqp
        · left; exact h1
      · right
        rw [getD_set_ne idx q p c (-1) hqp]
        exact h

theorem perm_covers (perm : List Nat) (n : Nat) (hlen : perm.length = n)
    (hnd : perm.Nodup) (hpm : ∀ p ∈ perm, p < n) (q : Nat) (hq : q < n) :
    q ∈ perm := by
  have hsub : perm ⊆ List.range n := fun p hp => List.mem_range.mpr (hpm p hp)
  have hsp := List.Nodup.subperm hnd hsub
  have hperm := hsp.perm_of_length_le (by rw [List.length_range, hlen])
  exact hperm.mem_iff.mpr (List.mem_range.mpr hq)

theorem cvFoldIdx_loo_eq (n : Nat) (hn : 1 ≤ n) (perm : List Nat)
    (hlen : perm.length = n) :
    cvFoldIdx n n perm =
      (List.range n).foldl (fun idx k => idx.set (perm.getD k 0) (k : Int))
        (List.replicate n (-1)) := by
  rw [cvFoldIdx]
  apply List.foldl_ext
  intro idx k hk
  have hkn : k < n := List.mem_range.mp hk
  have hdiv : n / n = 1 := Nat.div_self (by omega)
  have hslice : (perm.drop (k * (n / n))).take (min n ((n / n) * (k + 1)) - k * (n / n)) =
      [perm.getD k 0] := by
    rw [hdiv]
    have e1 : k * 1 = k := by ring
    have e2 : min n (1 * (k + 1)) = k + 1 := by omega
    rw [e1, e2]
    have e3 : k + 1 - k = 1 := by omega
    rw [e3]
    exact take_one_drop perm k (by omega) 0
  rw [hslice]
  rfl

theorem foldl_set_perm_getD (perm : List Nat) (n : Nat) (hlen : perm.length = n)
    (hnd : perm.Nodup) (hpm : ∀ p ∈ perm, p < n) (k' : Nat) (hk' : k' < n) :
    ∀ (ks : List Nat) (idx : List Int), idx.length = n → ks.Nodup →
      (∀ k ∈ ks, k < n) →
      (k' ∈ ks ∨ idx.getD (perm.getD k' 0) (-1) = (k' : Int)) →
      (ks.foldl (fun idx k => idx.set (perm.getD k 0) (k : Int)) idx).getD
        (perm.getD k' 0) (-1) = (k' : Int) := by
  intro ks
  induction ks with
  | nil =>
    intro idx _ _ _ h
    rcases h with h | h
    · simp at h
    · exact h
  | cons k ks ih =>
    intro idx hlen2 hksnd hkslt h
    rw [List.foldl_cons]
    have hkn : k < n := hkslt k (List.mem_cons_self k ks)
    have hplt : perm.getD k' 0 < n := hpm _ (getD_mem_lt perm k' (by omega) 0)
    by_cases hkk : k = k'
    · subst hkk
      apply ih (idx.set (perm.getD k 0) (k : Int))
        (by rw [List.length_set]; exact hlen2)
        (List.nodup_cons.mp hksnd).2
        (fun q hq => hkslt q (List.mem_cons_of_mem _ hq))
      right
      exact getD_set_self idx (perm.getD k 0) (k : Int) (-1) (by rw [hlen2]; exact hplt)
    · apply ih (idx.set (perm.getD k 0) (k : Int))
        (by rw [List.length_set]; exact hlen2)
        (List.nodup_cons.mp hksnd).2
        (fun q hq => hkslt q (List.mem_cons_of_mem _ hq))
      rcases h with h | h
      · rcases List.mem_cons.mp h with h1 | h1
        · exact absurd h1.symm hkk
        · left; exact h1
      · right
        have hne : perm.getD k 0 ≠ perm.getD k' 0 := by
          intro he
          have hklen : k < perm.length := by omega
          have hk'len : k' < perm.length := by omega
          rw [List.getD_eq_get perm 0 hklen, List.getD_eq_get perm 0 hk'len] at he
          exact hkk (congrArg Fin.val ((hnd.get_inj_iff).mp he))
        rw [getD_set_ne idx (perm.getD k 0) (perm.getD k' 0) (k : Int) (-1) hne]
        exact h

theorem cvFoldIdx_loo_getD (n : Nat) (hn : 1 ≤ n) (perm : List Nat)
    (hlen : perm.length = n) (hnd : perm.Nodup) (hpm : ∀ p ∈ perm, p < n)
    (k' : Nat) (hk' : k' < n) :
    (cvFoldIdx n n perm).getD (perm.getD k' 0) (-1) = (k' : Int) := by
  rw [cvFoldIdx_loo_eq n hn perm hlen]
  exact foldl_set_perm_getD perm n hlen hnd hpm k' hk' (List.range n)
    (List.replicate n (-1)) (List.length_replicate n (-1)) (List.nodup_range n)
    (fun k hk => List.mem_range.mp hk) (Or.inl (List.mem_range.mpr hk'))

theorem cvFoldIdx_one_eq (n : Nat) (perm : List Nat) (hlen : perm.length = n) :
    cvFoldIdx n 1 perm = assignIdx (List.replicate n (-1)) perm 0 := by
  rw [cvFoldIdx]
  have hr : List.range 1 = [0] := rfl
  rw [hr, List.foldl_cons, List.foldl_nil]
  have e0 : (0 : Nat) * (n / 1) = 0 := by ring
  have e1 : min n ((n / 1) * (0 + 1)) - 0 * (n / 1) = n := by
    rw [Nat.div_one]
    omega
  rw [e1, e0, List.drop_zero, ← hlen, List.take_length]
  rfl

theorem cvFoldIdx_one_getD (n : Nat) (perm : List Nat) (hlen : perm.length = n)
    (hnd : perm.Nodup) (hpm : ∀ p ∈ perm, p < n) (q : Nat) (hq : q < n) :
    (cvFoldIdx n 1 perm).getD q (-1) = 0 := by
  rw [cvFoldIdx_one_eq n perm hlen]
  exact assignIdx_getD_const perm (List.replicate n (-1)) 0 q
    (by rw [List.length_replicate]; exact hq)
    (Or.inl (perm_covers perm n hlen hnd hpm q hq))

theorem length_maskScatter {α : Type} (ms : List Bool) (l vals : List α) :
    (maskScatter ms l vals).length = l.length := by
  induction ms generalizing l vals with
  | nil => rfl
  | cons b ms ih =>
    cases l with
    | nil => rfl
    | cons a l =>
      by_cases hb : b
      · cases vals with
        | nil => simp [maskScatter, hb, ih]
        | cons v vs => simp [maskScatter, hb, ih]
      · simp [maskScatter, hb, ih]

theorem maskSelect_ne_nil {α : Type} (ms : List Bool) (l : List α) (q : Nat)
    (hq : q < l.length) (hqm : ms.getD q false = true) :
    maskSelect ms l ≠ [] := by
  induction ms generalizing l q with
  | nil => simp at hqm
  | cons b ms ih =>
    cases l with
    | nil => simp at hq
    | cons a l =>
      cases q with
      | zero =>
        have hb : b = true := hqm
        simp [maskSelect, hb]
      | succ q =>
        have hq2 : q < l.length := by simpa using hq
        have hrec := ih l q hq2 (by simpa using hqm)
        by_cases hb : b
        · simp [maskSelect, hb]
        · simp [maskSelect, hb]
          exact hrec

theorem maskSelect_eq_nil {α : Type} (ms : List Bool) (l : List α)
    (h : ∀ b ∈ ms, b = false) : maskSelect ms l = [] := by
  induction ms generalizing l with
  | nil => cases l <;> rfl
  | cons b ms ih =>
    cases l with
    | nil => rfl
    | cons a l =>
      have hb : b = false := h b (List.mem_cons_self b ms)
      rw [hb]
      show maskSelect (false :: ms) (a :: l) = []
      simp only [maskSelect, if_neg Bool.false_ne_true]
      exact ih l (fun b' hb' => h b' (List.mem_cons_of_mem _ hb'))

theorem length_relabelAll (z : List Int) (ps : List (Nat × Int)) :
    (relabelAll z ps).length = z.length := by
  rw [relabelAll_eq_map, List.length_map]

theorem reduceZ_isSome (z : List Int) (hz : z ≠ []) :
    ∃ z1 k1, reduceZ z = some (z1, k1) := by
  have hne : relabelAll z (npUnique (z.filter (fun v => decide (v > -1)))).enum ≠ [] := by
    intro h0
    have hl := length_relabelAll z (npUnique (z.filter (fun v => decide (v > -1)))).enum
    rw [h0] at hl
    exact hz (List.eq_nil_of_length_eq_zero hl.symm)
  obtain ⟨M, hM, _, _⟩ := npMax_spec _ hne
  exact ⟨_, _, by rw [reduceZ, hM]⟩

theorem cvFoldStep_z_length {σ : Type} (ext : CVExt σ) (x : List (List ℚ))
    (plike : List ℚ) (idx : List Int) (st : CVState σ) (k : Nat) (st1 : CVState σ)
    (h : cvFoldStep ext x plike idx st k = some st1) : st1.z.length = st.z.length := by
  simp only [cvFoldStep] at h
  rcases hred : reduceZ (maskSelect
      ((idx.map (fun v => decide (v = (k : Int)))).map (fun b => !b)) st.z) with _ | ⟨ztr, knew⟩
  · rw [hred] at h
    exact absurd h (by simp)
  · rw [hred] at h
    have h2 := (Option.some.injEq _ _).mp h
    rw [← h2]
    simp only [length_maskScatter]

theorem cvFoldStep_isSome {σ : Type} (ext : CVExt σ) (x : List (List ℚ))
    (plike : List ℚ) (idx : List Int) (st : CVState σ) (k : Nat) (q : Nat)
    (hq : q < st.z.length) (hq2 : q < idx.length)
    (hne : idx.getD q (-1) ≠ (k : Int)) :
    (cvFoldStep ext x plike idx st k).isSome = true := by
  have htm : ((idx.map (fun v => decide (v = (k : Int)))).map (fun b => !b)).getD q false =
      true := by
    rw [getD_map_lt' (fun b => !b) (idx.map (fun v => decide (v = (k : Int)))) q
        (by rw [List.length_map]; exact hq2) false false,
      getD_map_lt' (fun v => decide (v = (k : Int))) idx q hq2 (-1) false]
    simpa using hne
  have hsel : maskSelect ((idx.map (fun v => decide (v = (k : Int)))).map (fun b => !b))
      st.z ≠ [] := maskSelect_ne_nil _ _ q hq htm
  obtain ⟨ztr, knew, hred⟩ := reduceZ_isSome _ hsel
  simp only [cvFoldStep]
  rw [hred]
  rfl

theorem cvFoldStep_none_of_all_test {σ : Type} (ext : CVExt σ) (x : List (List ℚ))
    (plike : List ℚ) (idx : List Int) (st : CVState σ) (k : Nat)
    (hall : ∀ v ∈ idx, v = (k : Int)) :
    cvFoldStep ext x plike idx st k = none := by
  have hmask : ∀ b ∈ (idx.map (fun v => decide (v = (k : Int)))).map (fun b => !b),
      b = false := by
    intro b hb
    obtain ⟨b0, hb0, hbeq⟩ := List.mem_map.mp hb
    obtain ⟨v, hv, hveq⟩ := List.mem_map.mp hb0
    rw [← hbeq, ← hveq, hall v hv]
    simp
  have hsel : maskSelect ((idx.map (fun v => decide (v = (k : Int)))).map (fun b => !b))
      st.z = [] := maskSelect_eq_nil _ _ hmask
  simp only [cvFoldStep]
  rw [hsel]
  rfl

theorem cvLoop_isSome {σ : Type} (ext : CVExt σ) (x : List (List ℚ)) (plike : List ℚ)
    (idx : List Int) (n : Nat) (hidx : idx.length = n) :
    ∀ (ks : List Nat) (st : CVState σ), st.z.length = n →
      (∀ k ∈ ks, ∃ q, q < n ∧ idx.getD q (-1) ≠ (k : Int)) →
      ∃ st1, cvLoop ext x plike idx ks st = some st1 := by
  intro ks
  induction ks with
  | nil =>
    intro st _ _
    exact ⟨st, rfl⟩
  | cons k ks ih =>
    intro st hst hks
    obtain ⟨q, hq, hne⟩ := hks k (List.mem_cons_self k ks)
    have hs := cvFoldStep_isSome ext x plike idx st k q (by rw [hst]; exact hq)
      (by rw [hidx]; exact hq) hne
    obtain ⟨st1, hst1⟩ := Option.isSome_iff_exists.mp hs
    have hlen1 := cvFoldStep_z_length ext x plike idx st k st1 hst1
    simp only [cvLoop]
    rw [hst1]
    exact ih st1 (by rw [hlen1]; exact hst)
      (fun q' hq' => hks q' (List.mem_cons_of_mem _ hq'))

/-- C6 (amended): with the scalar fold count K = N (leave-one-out) on
N ≥ 2 points, cross_validated_update runs to completion for every
permutation argsort can draw and any behaviour of the external
collaborators: each fold's training partition has N-1 ≥ 1 points, so the
reduce/update pair succeeds, and no division by zero occurs.  With K = 1,
however, the single fold's test set is the whole dataset, its training
partition is empty, and reduce raises ValueError on z.max() of an empty
array, so the call fails instead of running to completion (the original
claim asserted both extremes succeed; see the counterexample). -/
theorem c6_cross_validated_update_extremes {σ : Type} (ext : CVExt σ) (k0 : Int)
    (s0 : σ) (x : List (List ℚ)) (z : List Int) (plike : List ℚ) (perm : List Nat)
    (hn : 2 ≤ x.length) (hz : z.length = x.length) (hpl : perm.length = x.length)
    (hnd : perm.Nodup) (hpm : ∀ p ∈ perm, p < x.length) :
    (∃ st1, cross_validated_update ext k0 s0 x z plike (Sum.inl x.length) perm =
        Except.ok st1) ∧
    cross_validated_update ext k0 s0 x z plike (Sum.inl 1) perm =
      Except.error PyError.zeroSizeMax := by
  constructor
  · have hidx : (cvFoldIdx x.length x.length perm).length = x.length :=
      length_cvFoldIdx x.length x.length perm
    have hfold : ∀ k ∈ List.range x.length, ∃ q, q < x.length ∧
        (cvFoldIdx x.length x.length perm).getD q (-1) ≠ (k : Int) := by
      intro k hk
      have hkn : k < x.length := List.mem_range.mp hk
      by_cases h0 : k = 0
      · refine ⟨perm.getD 1 0, hpm _ (getD_mem_lt perm 1 (by omega) 0), ?_⟩
        rw [cvFoldIdx_loo_getD x.length (by omega) perm hpl hnd hpm 1 (by omega), h0]
        intro he
        exact absurd he (by decide)
      · refine ⟨perm.getD 0 0, hpm _ (getD_mem_lt perm 0 (by omega) 0), ?_⟩
        rw [cvFoldIdx_loo_getD x.length (by omega) perm hpl hnd hpm 0 (by omega)]
        intro he
        have : k = 0 := by exact_mod_cast he.symm
        exact h0 this
    obtain ⟨st1, hloop⟩ := cvLoop_isSome ext x plike (cvFoldIdx x.length x.length perm)
      x.length hidx (List.range x.length) ⟨k0, s0, z, List.replicate x.length 0⟩ hz hfold
    refine ⟨st1, ?_⟩
    simp only [cross_validated_update]
    rw [hloop]
  · have hall : ∀ v ∈ cvFoldIdx x.length 1 perm, v = ((0 : Nat) : Int) := by
      apply mem_eq_of_getD
      intro q hq
      rw [length_cvFoldIdx] at hq
      simpa using cvFoldIdx_one_getD x.length perm hpl hnd hpm q hq
    have hstep := cvFoldStep_none_of_all_test ext x plike (cvFoldIdx x.length 1 perm)
      ⟨k0, s0, z, List.replicate x.length 0⟩ 0 hall
    simp only [cross_validated_update]
    have hr : List.range 1 = [0] := rfl
    rw [hr]
    simp only [cvLoop]
    rw [hstep]

/-- C6 counterexample: with N = 2 points and K = 1 the single fold's
training partition is empty, reduce fails on z.max() of a zero-size array,
and cross_validated_update errors instead of running to completion as the
claim asserts. -/
theorem c6_k1_empty_train_counterexample :
    cross_validated_update
      (⟨fun s _ _ _ => s, fun _ _ _ _ => [], fun _ _ => []⟩ : CVExt Unit)
      1 () [[(0 : ℚ)], [(1 : ℚ)]] [0, 0] [1, 1] (Sum.inl 1) [0, 1] =
      Except.error PyError.zeroSizeMax := rfl

/-- C6 witness: the amended theorem applied to a two-point dataset with the
identity permutation. -/
theorem c6_cross_validated_update_extremes_witness :
    (∃ st1, cross_validated_update
        (⟨fun s _ _ _ => s, fun _ _ _ _ => [], fun _ _ => []⟩ : CVExt Unit)
        1 () [[(0 : ℚ)], [(1 : ℚ)]] [0, 0] [1, 1] (Sum.inl 2) [0, 1] =
        Except.ok st1) ∧
    cross_validated_update
      (⟨fun s _ _ _ => s, fun _ _ _ _ => [], fun _ _ => []⟩ : CVExt Unit)
      1 () [[(0 : ℚ)], [(1 : ℚ)]] [0, 0] [1, 1] (Sum.inl 1) [0, 1] =
      Except.error PyError.zeroSizeMax :=
  c6_cross_validated_update_extremes
    (⟨fun s _ _ _ => s, fun _ _ _ _ => [], fun _ _ => []⟩ : CVExt Unit)
    1 () [[(0 : ℚ)], [(1 : ℚ)]] [0, 0] [1, 1] [0, 1]
    (by decide) (by decide) (by decide) (by decide) (by decide)

/-- pproba += (z == -1): numpy adds the boolean null indicator per entry. -/
def addNullIndicator (pp : List ℚ) (z : List Int) : List ℚ :=
  List.zipWith (fun p v => p + (if v = -1 then 1 else 0)) pp z

/-- The sweep loop of MixedIMM.sample (imm.py lines 470-488).  One sweep
runs the update (simple_update or cross_validated_update), recomputes the
likelihood llike and redraws the indicator z = sample_indicator(llike,
null_class_proba) — a composite dominated by the external collaborators
and abstracted as the total transition step, returning the new model state
and the sweep's drawn indicator vector; the loop then accumulates
pproba += (z == -1). -/
def mixedSampleLoop {σ : Type} (step : σ → List Int → σ × List Int) :
    Nat → σ → List Int → List ℚ → σ × List Int × List ℚ
  | 0, s, z, pp => (s, z, pp)
  | t + 1, s, z, pp =>
    mixedSampleLoop step t (step s z).1 (step s z).2 (addNullIndicator pp (step s z).2)

/-- The second return value pproba of MixedIMM.sample (imm.py lines 452,
479 and 488): start from np.zeros(n_samples), accumulate the null
indicator over the niter sweeps, divide by niter. -/
def mixedSample_pproba {σ : Type} (step : σ → List Int → σ × List Int)
    (niter : Nat) (s0 : σ) (z0 : List Int) (n : Nat) : List ℚ :=
  (mixedSampleLoop step niter s0 z0 (List.replicate n 0)).2.2.map
    (fun p => p / (niter : ℚ))

/-- The number of the first t sweeps whose drawn indicator for point i is
the null label -1: the counting quantity of the claim. -/
def nullCount {σ : Type} (step : σ → List Int → σ × List Int) :
    Nat → σ → List Int → Nat → Nat
  | 0, _, _, _ => 0
  | t + 1, s, z, i =>
    (if (step s z).2.getD i 0 = -1 then 1 else 0) +
      nullCount step t (step s z).1 (step s z).2 i

theorem getD_replicate (n : Nat) (c : ℚ) (i : Nat) :
    (List.replicate n c).getD i c = c := by
  induction n generalizing i with
  | zero => rfl
  | succ n ih =>
    cases i with
    | zero => rfl
    | succ i =>
      rw [List.replicate_succ, List.getD_cons_succ]
      exact ih i

theorem mixedSampleLoop_getD {σ : Type} (step : σ → List Int → σ × List Int)
    (n : Nat) (hstep : ∀ s z, ((step s z).2).length = n) (i : Nat) (hi : i < n) :
    ∀ (t : Nat) (s : σ) (z : List Int) (pp : List ℚ), pp.length = n →
      ((mixedSampleLoop step t s z pp).2.2.getD i 0 =
        pp.getD i 0 + (nullCount step t s z i : ℚ)) ∧
      (mixedSampleLoop step t s z pp).2.2.length = n := by
  intro t
  induction t with
  | zero =>
    intro s z pp hpp
    exact ⟨by simp [mixedSampleLoop, nullCount], hpp⟩
  | succ t ih =>
    intro s z pp hpp
    have hunf : mixedSampleLoop step (t + 1) s z pp =
        mixedSampleLoop step t (step s z).1 (step s z).2
          (addNullIndicator pp (step s z).2) := rfl
    have hlen : (addNullIndicator pp (step s z).2).length = n := by
      rw [addNullIndicator, List.length_zipWith, hpp, hstep]
      simp
    have hrec := ih (step s z).1 (step s z).2 (addNullIndicator pp (step s z).2) hlen
    constructor
    · rw [hunf, hrec.1]
      have hadd : (addNullIndicator pp (step s z).2).getD i 0 =
          pp.getD i 0 + (if (step s z).2.getD i 0 = -1 then (1 : ℚ) else 0) := by
        rw [addNullIndicator]
        exact getD_zipWith_lt (fun p v => p + (if v = -1 then (1 : ℚ) else 0))
          pp (step s z).2 i (by rw [hpp]; exact hi) (by rw [hstep]; exact hi) 0 0 0
      rw [hadd, nullCount]
      by_cases hz : (step s z).2.getD i 0 = -1 <;> simp [hz] <;> ring
    · rw [hunf]
      exact hrec.2

theorem nullCount_le {σ : Type} (step : σ → List Int → σ × List Int) (t : Nat)
    (s : σ) (z : List Int) (i : Nat) : nullCount step t s z i ≤ t := by
  induction t generalizing s z with
  | zero => exact le_refl 0
  | succ t ih =>
    rw [nullCount]
    have h2 := ih (step s z).1 (step s z).2
    by_cases hz : (step s z).2.getD i 0 = -1
    · rw [if_pos hz]
      omega
    · rw [if_neg hz]
      omega

/-- C10: the second result pproba of MixedIMM.sample has length n_samples,
and for every point i its entry equals the number of the niter sweeps
whose drawn indicator for i was the null label -1 divided by niter, a
value lying in [0, 1] — for every initial state, initial indicator and
every behaviour of the per-sweep composite (update, likelihood,
indicator-draw). -/
theorem c10_mixed_sample_pproba_null_fraction {σ : Type}
    (step : σ → List Int → σ × List Int) (niter : Nat) (hniter : 0 < niter)
    (s0 : σ) (z0 : List Int) (n : Nat) (hstep : ∀ s z, ((step s z).2).length = n)
    (i : Nat) (hi : i < n) :
    (mixedSample_pproba step niter s0 z0 n).length = n ∧
    (mixedSample_pproba step niter s0 z0 n).getD i 0 =
      (nullCount step niter s0 z0 i : ℚ) / (niter : ℚ) ∧
    0 ≤ (mixedSample_pproba step niter s0 z0 n).getD i 0 ∧
    (mixedSample_pproba step niter s0 z0 n).getD i 0 ≤ 1 := by
  have hloop := mixedSampleLoop_getD step n hstep i hi niter s0 z0
    (List.replicate n 0) (List.length_replicate n 0)
  have hlen : (mixedSample_pproba step niter s0 z0 n).length = n := by
    rw [mixedSample_pproba, List.length_map]
    exact hloop.2
  have hval : (mixedSample_pproba step niter s0 z0 n).getD i 0 =
      (nullCount step niter s0 z0 i : ℚ) / (niter : ℚ) := by
    rw [mixedSample_pproba,
      getD_map_lt' (fun p => p / (niter : ℚ)) _ i (by rw [hloop.2]; exact hi) 0 0,
      hloop.1, getD_replicate]
    ring
  refine ⟨hlen, hval, ?_, ?_⟩
  · rw [hval]
    positivity
  · rw [hval]
    rw [div_le_one (by exact_mod_cast hniter)]
    exact_mod_cast nullCount_le step niter s0 z0 i

/-- C10 witness: two sweeps that always draw the null label for the single
point give pproba = [1] = [2/2]. -/
theorem c10_mixed_sample_pproba_null_fraction_witness :
    (mixedSample_pproba (fun (_ : Unit) (_ : List Int) => ((), [-1])) 2 () [0] 1).length = 1 ∧
    (mixedSample_pproba (fun (_ : Unit) (_ : List Int) => ((), [-1])) 2 () [0] 1).getD 0 0 =
      (nullCount (fun (_ : Unit) (_ : List Int) => ((), [-1])) 2 () [0] 0 : ℚ) /
        ((2 : Nat) : ℚ) ∧
    0 ≤ (mixedSample_pproba (fun (_ : Unit) (_ : List Int) => ((), [-1])) 2 () [0] 1).getD 0 0 ∧
    (mixedSample_pproba (fun (_ : Unit) (_ : List Int) => ((), [-1])) 2 () [0] 1).getD 0 0 ≤ 1 :=
  c10_mixed_sample_pproba_null_fraction (fun (_ : Unit) (_ : List Int) => ((), [-1]))
    2 (by decide) () [0] 1 (fun _ _ => rfl) 0 (by decide)
